import Mathlib

/-!
Shallow embedding of `src/platform/nf-token/nft-protocols-manager.cpp`
(Crown `Platform::NftProtocolsManager`).

The in-memory container `m_nftProtoIndexSet` is a boost multi-index set with
a unique key on `tokenProtocolId` and an ordered non-unique secondary index
on block height.  We model it as a `List NftProtoIndex` kept in ascending
block-height order (boost's `ordered_non_unique` inserts an element after
all existing elements of equal height, which `insertByHeight` mirrors); the
unique-key view is `findByProtocolId`, and `emplace` rejects an element
whose `tokenProtocolId` is already present without changing anything, as
the multi-index `emplace` does.

The persistent store (`PlatformDb`) is not part of `src/`; only its call
sites are.  It is modelled from the spec's PersistentStore contract as a
key-value state: a total-count cell plus a list of disk index entries keyed
by protocol id (`ReadEntry`/`WriteEntry`/`EraseEntry` with last-write-wins
key semantics, `ReadTotalCount`/`WriteTotalCount` on the counter).

Machine integers: `nHeight`, `count`, `startFrom` and the counter are C++
`int`/integer values, modelled as `Int`; hashes and ids are modelled as
`Nat` (only equality and null-checks are performed on them; zero stands for
the null hash / null `CKeyID` / `NfToken::UNKNOWN_TOKEN_PROTOCOL`).
-/

set_option autoImplicit false

namespace Platform

/-- Protocol descriptor `NfTokenProtocol`.  `tokenProtocolOwnerId` is a
`CKeyID`; its `IsNull()` test is `= 0` here.  Remaining descriptor fields
(`tokenProtocolName`, registration fees, …) are opaque metadata. -/
structure NfTokenProtocol where
  tokenProtocolId : Nat
  tokenProtocolOwnerId : Nat
  metadata : Nat
  deriving DecidableEq, Repr

/-- Chain block-index node `CBlockIndex`: the node an entry points at.  Only
`nHeight` and the block hash are read by the manager. -/
structure CBlockIndex where
  nHeight : Int
  blockHash : Nat
  deriving DecidableEq, Repr

/-- Registration record `NftProtoIndex`: one registration event held in the in-memory set
(block index pointer, registration tx hash, shared descriptor).  The C++
"null" index is modelled by `Option NftProtoIndex` at use sites. -/
structure NftProtoIndex where
  blockIndex : CBlockIndex
  regTxHash : Nat
  nftProto : NfTokenProtocol
  deriving DecidableEq, Repr

/-- Primary key of an index entry: `NftProtoIndex::ProtocolId()`. -/
def NftProtoIndex.protocolId (e : NftProtoIndex) : Nat :=
  e.nftProto.tokenProtocolId

/-- Height of an index entry: `entry.BlockIndex()->nHeight`. -/
def NftProtoIndex.height (e : NftProtoIndex) : Int :=
  e.blockIndex.nHeight

/-- Unique-key view of the multi-index set:
`m_nftProtoIndexSet.find(protocolId)`. -/
def findByProtocolId (s : List NftProtoIndex) (protocolId : Nat) :
    Option NftProtoIndex :=
  s.find? (fun e => e.protocolId == protocolId)

/-- Insertion into the height-ordered secondary index: the new element goes
before the first strictly higher element, i.e. after all elements of equal
height (boost `ordered_non_unique` placement). -/
def insertByHeight (e : NftProtoIndex) : List NftProtoIndex → List NftProtoIndex
  | [] => [e]
  | x :: xs =>
      if e.height < x.height then e :: x :: xs else x :: insertByHeight e xs

/-- Emplacement `m_nftProtoIndexSet.emplace(entry)`: fails (second component `false`)
without any change when the unique `protocolId` key is already present,
otherwise inserts into both views. -/
def emplace (s : List NftProtoIndex) (e : NftProtoIndex) :
    List NftProtoIndex × Bool :=
  if (findByProtocolId s e.protocolId).isSome then (s, false)
  else (insertByHeight e s, true)

/-- Erase by primary key (`m_nftProtoIndexSet.erase(it)` where `it` was
obtained by `find(protocolId)`): removes the first — under the uniqueness
invariant the only — element with that key. -/
def eraseByProtocolId (s : List NftProtoIndex) (protocolId : Nat) :
    List NftProtoIndex :=
  s.eraseP (fun e => e.protocolId == protocolId)

/-- Modelled from the spec: the PersistentStore collaborator
(`PlatformDb`), whose implementation is outside `src/`.  A durable
key-value service: `totalCount` backs `ReadTotalProtocolCount` /
`WriteTotalProtocolCount`, and `entries` backs the per-protocol disk index
(`ReadNftProtoIndex` / `WriteNftProtoDiskIndex` / `EraseNftProtoDiskIndex`),
keyed by protocol id. -/
structure PlatformDbState where
  totalCount : Int
  entries : List NftProtoIndex
  deriving DecidableEq, Repr

/-- Modelled from the spec: `PlatformDb::ReadNftProtoIndex(protocolId)` —
`ReadEntry(protocolId) → Entry (nullable)`. -/
def readNftProtoIndex (db : PlatformDbState) (protocolId : Nat) :
    Option NftProtoIndex :=
  db.entries.find? (fun e => e.protocolId == protocolId)

/-- Modelled from the spec: `PlatformDb::WriteNftProtoDiskIndex` —
`WriteEntry(...)`, a key-value put: it replaces any entry already stored
under the same protocol id. -/
def writeNftProtoDiskIndex (db : PlatformDbState) (e : NftProtoIndex) :
    PlatformDbState :=
  { db with
    entries := e :: db.entries.filter (fun x => x.protocolId != e.protocolId) }

/-- Modelled from the spec: `PlatformDb::EraseNftProtoDiskIndex` —
`EraseEntry(protocolId)`. -/
def eraseNftProtoDiskIndex (db : PlatformDbState) (protocolId : Nat) :
    PlatformDbState :=
  { db with
    entries := db.entries.filter (fun x => x.protocolId != protocolId) }

/-- Modelled from the spec: `PlatformDb::WriteTotalProtocolCount`. -/
def writeTotalProtocolCount (db : PlatformDbState) (c : Int) :
    PlatformDbState :=
  { db with totalCount := c }

/-- The mutable fields of `NftProtocolsManager`, together with the
persistent store it talks to (the store is global state in the program;
carrying it in the same record makes every write-through explicit). -/
structure ManagerState where
  m_nftProtoIndexSet : List NftProtoIndex
  m_totalProtocolsCount : Int
  m_tipHeight : Int
  m_tipBlockHash : Nat
  db : PlatformDbState
  deriving DecidableEq, Repr

/-- Constructor `NftProtocolsManager::NftProtocolsManager()`: reads the persisted
total count, then streams every persisted entry into the in-memory set via
`ProcessNftProtoIndexGutsOnly`, whose callback returns
`m_nftProtoIndexSet.emplace(protoIndex).second`.  Modelled from the spec:
`ProcessNftProtoIndexGutsOnly` itself is outside `src/`; per the spec it
streams every persisted index entry, and an entry whose key collides with
one already present is skipped non-fatally (logged) while the scan
continues — so the stream is a fold of `emplace` over all stored entries.
Tip state starts at zero (set only by `UpdateBlockTip`). -/
def constructManager (db : PlatformDbState) : ManagerState :=
  { m_nftProtoIndexSet := db.entries.foldl (fun s e => (emplace s e).1) []
    m_totalProtocolsCount := db.totalCount
    m_tipHeight := 0
    m_tipBlockHash := 0
    db := db }

/-- Operation `NftProtocolsManager::AddNftProto(nftProto, tx, pindex)`.  The
function's `assert`s (non-reserved id, non-null owner, non-null `pindex`
and tx hash) are preconditions carried as hypotheses of the theorems; the
embedding gives the post-assert behaviour: build the index entry, try to
`emplace` it, and only on success write the disk index and the incremented
count through to the store. -/
def AddNftProto (st : ManagerState) (nftProto : NfTokenProtocol)
    (txHash : Nat) (pindex : CBlockIndex) : ManagerState × Bool :=
  let nftProtoIndex : NftProtoIndex :=
    { blockIndex := pindex, regTxHash := txHash, nftProto := nftProto }
  let itRes := emplace st.m_nftProtoIndexSet nftProtoIndex
  if itRes.2 then
    ({ st with
        m_nftProtoIndexSet := itRes.1
        m_totalProtocolsCount := st.m_totalProtocolsCount + 1
        db := writeTotalProtocolCount
                (writeNftProtoDiskIndex st.db nftProtoIndex)
                (st.m_totalProtocolsCount + 1) }, true)
  else (st, false)

/-- Helper `NftProtocolsManager::GetNftProtoIndexFromDb(protocolId)`: read the
store; if found, emplace into the in-memory set (the `assert(insRes.second)`
holds at every call site because the function is reached only on an
in-memory miss, so `*insRes.first` is the entry just read) and return it;
on a store miss log and return the null index, changing nothing. -/
def GetNftProtoIndexFromDb (st : ManagerState) (protocolId : Nat) :
    ManagerState × Option NftProtoIndex :=
  match readNftProtoIndex st.db protocolId with
  | some protoIndex =>
      ({ st with m_nftProtoIndexSet := (emplace st.m_nftProtoIndexSet protoIndex).1 },
       some protoIndex)
  | none => (st, none)

/-- Lookup `NftProtocolsManager::GetNftProtoIndex(protocolId)`: in-memory set
first, persistent store on a miss. -/
def GetNftProtoIndex (st : ManagerState) (protocolId : Nat) :
    ManagerState × Option NftProtoIndex :=
  match findByProtocolId st.m_nftProtoIndexSet protocolId with
  | some e => (st, some e)
  | none => GetNftProtoIndexFromDb st protocolId

/-- Query `NftProtocolsManager::Contains(protocolId, height)`: a lookup through
`GetNftProtoIndex`, then the height-visibility test
`BlockIndex()->nHeight <= height` on a non-null result. -/
def Contains (st : ManagerState) (protocolId : Nat) (height : Int) :
    ManagerState × Bool :=
  let r := GetNftProtoIndex st protocolId
  match r.2 with
  | some nftProtoIdx => (r.1, decide (nftProtoIdx.height ≤ height))
  | none => (r.1, false)

/-- Overload `NftProtocolsManager::Contains(protocolId)`: the one-argument overload
uses the current tip height. -/
def ContainsAtTip (st : ManagerState) (protocolId : Nat) :
    ManagerState × Bool :=
  Contains st protocolId st.m_tipHeight

/-- Query `NftProtocolsManager::OwnerOf(protocolId)`: in-memory hit returns the
cached descriptor's owner; on a miss the owner is read off the result of
`GetNftProtoIndexFromDb` — when that result is the null index the C++
dereferences a null `shared_ptr` (a fault, per the spec's null-dereference
contract), modelled as `none`; no registry state has been mutated at that
point. -/
def OwnerOf (st : ManagerState) (protocolId : Nat) :
    ManagerState × Option Nat :=
  match findByProtocolId st.m_nftProtoIndexSet protocolId with
  | some e => (st, some e.nftProto.tokenProtocolOwnerId)
  | none =>
      let r := GetNftProtoIndexFromDb st protocolId
      (r.1, r.2.map (fun e => e.nftProto.tokenProtocolOwnerId))

/-- Operation `NftProtocolsManager::Delete(protocolId, height)`: consults only the
in-memory set; erases from the set, erases the disk index and writes the
decremented count through exactly when the entry is found there with
`nHeight <= height`, returning `true`; otherwise returns `false` with no
side effects. -/
def Delete (st : ManagerState) (protocolId : Nat) (height : Int) :
    ManagerState × Bool :=
  match findByProtocolId st.m_nftProtoIndexSet protocolId with
  | some it =>
      if it.height ≤ height then
        ({ st with
            m_nftProtoIndexSet := eraseByProtocolId st.m_nftProtoIndexSet protocolId
            m_totalProtocolsCount := st.m_totalProtocolsCount - 1
            db := writeTotalProtocolCount
                    (eraseNftProtoDiskIndex st.db protocolId)
                    (st.m_totalProtocolsCount - 1) }, true)
      else (st, false)
  | none => (st, false)

/-- Overload `NftProtocolsManager::Delete(protocolId)`: the one-argument overload
uses the current tip height. -/
def DeleteAtTip (st : ManagerState) (protocolId : Nat) :
    ManagerState × Bool :=
  Delete st protocolId st.m_tipHeight

/-- Operation `NftProtocolsManager::UpdateBlockTip(pindex)`. -/
def UpdateBlockTip (st : ManagerState) (pindex : CBlockIndex) : ManagerState :=
  { st with m_tipHeight := pindex.nHeight, m_tipBlockHash := pindex.blockHash }

/-- Iteration `NftProtocolsManager::ProcessFullNftProtoIndexRange`: visits every
entry in order; a `false` from the visitor is only logged, so the visited
sequence is the whole set regardless of visitor results. -/
def ProcessFullNftProtoIndexRange (st : ManagerState) : List NftProtoIndex :=
  st.m_nftProtoIndexSet

/-- The element sequence the C++ loop over `NftProtoIndexRange(begin, end)`
visits, where `begin` sits `b` positions and `end` sits `e` positions from
the start of the height-qualified range.  For `0 ≤ b ≤ e ≤ length` this is
exactly the slice the iterators delimit.  Outside that range the C++
iterator arithmetic (`std::prev` past `begin()` or beyond `end()`, or an
`end` preceding `begin`) is undefined behaviour; the embedding totalises it
by clamping to the list's bounds, which visits nothing when the computed
stop offset lies at or before the start offset. -/
def sliceByIterators (range : List NftProtoIndex) (b e : Int) :
    List NftProtoIndex :=
  (range.drop b.toNat).take (e - b).toNat

/-- Pagination `NftProtocolsManager::ProcessNftProtoIndexRangeByHeight(handler,
height, count, startFrom)`: the height-qualified range is the boost
`range(unbounded, curHeight <= height)` over the ascending height index —
on the height-sorted set, the longest prefix of entries with
`nHeight <= height`.  `rangeSize`, `reverseBegin` and `reverseEnd` follow
lines 112–118 of the source; the result is the visited entry sequence
(visitor failures are logged and do not stop the loop). -/
def ProcessNftProtoIndexRangeByHeight (st : ManagerState) (height : Int)
    (count : Int) (startFrom : Int) : List NftProtoIndex :=
  let originalRange :=
    st.m_nftProtoIndexSet.takeWhile (fun e => decide (e.height ≤ height))
  let rangeSize : Int := originalRange.length
  let reverseBegin : Int := if rangeSize < startFrom then rangeSize else startFrom
  let reverseEnd : Int :=
    if rangeSize < startFrom + count then 0 else reverseBegin - count
  sliceByIterators originalRange (rangeSize - reverseBegin) (rangeSize - reverseEnd)

/-- Heights of a visited entry sequence, for stating the pagination
examples. -/
def heightsOf (l : List NftProtoIndex) : List Int :=
  l.map NftProtoIndex.height

/-- Height-qualified range of a state: the boost
`range(unbounded, curHeight <= height)` over the ascending height index, as
computed inside `ProcessNftProtoIndexRangeByHeight`. -/
def heightQualifiedRange (st : ManagerState) (height : Int) :
    List NftProtoIndex :=
  st.m_nftProtoIndexSet.takeWhile (fun e => decide (e.height ≤ height))

/-- Sample registration entry with the given protocol id and height. -/
def mkEntry (id : Nat) (h : Int) : NftProtoIndex :=
  { blockIndex := { nHeight := h, blockHash := 100 + id }
    regTxHash := 200 + id
    nftProto :=
      { tokenProtocolId := id, tokenProtocolOwnerId := 10 + id, metadata := 0 } }

/-- Five cached entries at heights 1–5, ascending. -/
def indexSet5 : List NftProtoIndex :=
  [mkEntry 1 1, mkEntry 2 2, mkEntry 3 3, mkEntry 4 4, mkEntry 5 5]

/-- Registry state whose height-qualified range at height 5 has heights
`[1, 2, 3, 4, 5]` (store contents mirror the cache). -/
def st5 : ManagerState :=
  { m_nftProtoIndexSet := indexSet5
    m_totalProtocolsCount := 5
    m_tipHeight := 5
    m_tipBlockHash := 0
    db := { totalCount := 5, entries := indexSet5 } }

/-- An entry (id 7, height 3) that lives only in the persistent store in
the cache-miss fixture below. -/
def e7 : NftProtoIndex := mkEntry 7 3

/-- Registry state with an empty in-memory index whose persistent store
holds `e7`: the cache-miss configuration of claims C3 and C10. -/
def stCacheMiss : ManagerState :=
  { m_nftProtoIndexSet := []
    m_totalProtocolsCount := 1
    m_tipHeight := 10
    m_tipBlockHash := 0
    db := { totalCount := 1, entries := [e7] } }

/-- Public operations of the manager, for stating trace invariants. -/
inductive Op where
  | addOp (d : NfTokenProtocol) (tx : Nat) (blk : CBlockIndex)
  | deleteOp (pid : Nat) (h : Int)
  | deleteAtTipOp (pid : Nat)
  | containsOp (pid : Nat) (h : Int)
  | containsAtTipOp (pid : Nat)
  | lookupOp (pid : Nat)
  | ownerOfOp (pid : Nat)
  | updateTipOp (blk : CBlockIndex)
  deriving DecidableEq, Repr

/-- One public call: the successor state, whether the call was a successful
`AddNftProto`, and whether it was a successful `Delete`. -/
def stepCounts (st : ManagerState) : Op → ManagerState × Bool × Bool
  | .addOp d tx blk =>
      let r := AddNftProto st d tx blk
      (r.1, r.2, false)
  | .deleteOp pid h =>
      let r := Delete st pid h
      (r.1, false, r.2)
  | .deleteAtTipOp pid =>
      let r := DeleteAtTip st pid
      (r.1, false, r.2)
  | .containsOp pid h => ((Contains st pid h).1, false, false)
  | .containsAtTipOp pid => ((ContainsAtTip st pid).1, false, false)
  | .lookupOp pid => ((GetNftProtoIndex st pid).1, false, false)
  | .ownerOfOp pid => ((OwnerOf st pid).1, false, false)
  | .updateTipOp blk => (UpdateBlockTip st blk, false, false)

/-- Run a trace of public calls from a state, counting successful adds and
successful deletes. -/
def runFrom (st : ManagerState) (n m : Nat) : List Op → ManagerState × Nat × Nat
  | [] => (st, n, m)
  | op :: ops =>
      let r := stepCounts st op
      runFrom r.1 (n + (if r.2.1 then 1 else 0)) (m + (if r.2.2 then 1 else 0)) ops

/-- Run a trace of public calls on a registry constructed over an empty
persistent store. -/
def runTrace (ops : List Op) : ManagerState × Nat × Nat :=
  runFrom (constructManager { totalCount := 0, entries := [] }) 0 0 ops

/-- Store–cache synchronisation: every protocol id readable from the
persistent store is also present in the in-memory index. -/
def StoreCached (st : ManagerState) : Prop :=
  ∀ pid, readNftProtoIndex st.db pid = none ∨
    (findByProtocolId st.m_nftProtoIndexSet pid).isSome = true

/-! Helper lemmas about the multi-index set and the modelled store. -/

theorem findByProtocolId_nil (pid : Nat) : findByProtocolId [] pid = none := rfl

theorem findByProtocolId_cons (x : NftProtoIndex) (xs : List NftProtoIndex)
    (pid : Nat) :
    findByProtocolId (x :: xs) pid =
      if x.protocolId = pid then some x else findByProtocolId xs pid := by
  by_cases h : x.protocolId = pid
  · simp [findByProtocolId, h]
  · simp [findByProtocolId, h]

theorem find_some_spec {s : List NftProtoIndex} {pid : Nat} {e : NftProtoIndex}
    (h : findByProtocolId s pid = some e) : e.protocolId = pid ∧ e ∈ s := by
  refine ⟨?_, List.mem_of_find?_eq_some h⟩
  have := List.find?_some h
  simpa using this

theorem findByProtocolId_insertByHeight_self (e : NftProtoIndex)
    (s : List NftProtoIndex) (h : findByProtocolId s e.protocolId = none) :
    findByProtocolId (insertByHeight e s) e.protocolId = some e := by
  induction s with
  | nil => simp [insertByHeight, findByProtocolId_cons]
  | cons x xs ih =>
    rw [findByProtocolId_cons] at h
    split at h
    · exact absurd h (by simp)
    · rename_i hx
      rw [insertByHeight]
      split
      · rw [findByProtocolId_cons]; simp
      · rw [findByProtocolId_cons, if_neg hx]
        exact ih h

theorem findByProtocolId_insertByHeight_ne (e : NftProtoIndex)
    (s : List NftProtoIndex) (pid : Nat) (h : e.protocolId ≠ pid) :
    findByProtocolId (insertByHeight e s) pid = findByProtocolId s pid := by
  induction s with
  | nil => simp [insertByHeight, findByProtocolId_cons, h, findByProtocolId_nil]
  | cons x xs ih =>
    rw [insertByHeight]
    split
    · rw [findByProtocolId_cons, if_neg h]
    · rw [findByProtocolId_cons, findByProtocolId_cons x xs pid]
      split
      · rfl
      · exact ih

theorem length_insertByHeight (e : NftProtoIndex) (s : List NftProtoIndex) :
    (insertByHeight e s).length = s.length + 1 := by
  induction s with
  | nil => rfl
  | cons x xs ih =>
    rw [insertByHeight]
    split <;> simp [ih]

theorem findByProtocolId_eraseP_ne (s : List NftProtoIndex) (pid q : Nat)
    (h : pid ≠ q) :
    findByProtocolId (eraseByProtocolId s pid) q = findByProtocolId s q := by
  induction s with
  | nil => rfl
  | cons x xs ih =>
    simp only [eraseByProtocolId, List.eraseP_cons] at ih ⊢
    by_cases hx : x.protocolId = pid
    · simp only [hx, beq_self_eq_true, cond_true]
      rw [findByProtocolId_cons, if_neg (by rw [hx]; exact h)]
    · have hb : (x.protocolId == pid) = false := by simp [hx]
      simp only [hb, cond_false]
      rw [findByProtocolId_cons, findByProtocolId_cons]
      split
      · rfl
      · exact ih

theorem findByProtocolId_erase_self (s : List NftProtoIndex) (pid : Nat)
    (hnd : (s.map NftProtoIndex.protocolId).Nodup) :
    findByProtocolId (eraseByProtocolId s pid) pid = none := by
  induction s with
  | nil => rfl
  | cons x xs ih =>
    simp only [List.map_cons, List.nodup_cons] at hnd
    simp only [eraseByProtocolId, List.eraseP_cons] at ih ⊢
    by_cases hx : x.protocolId = pid
    · simp only [hx, beq_self_eq_true, cond_true]
      rw [← hx]
      rcases hf : findByProtocolId xs x.protocolId with _ | e
      · rfl
      · exact absurd ((find_some_spec hf).1 ▸
          List.mem_map_of_mem NftProtoIndex.protocolId (find_some_spec hf).2)
          hnd.1
    · have hb : (x.protocolId == pid) = false := by simp [hx]
      simp only [hb, cond_false]
      rw [findByProtocolId_cons, if_neg hx]
      exact ih hnd.2

theorem length_erase_of_find (s : List NftProtoIndex) (pid : Nat)
    (e : NftProtoIndex) (h : findByProtocolId s pid = some e) :
    (eraseByProtocolId s pid).length + 1 = s.length := by
  have hmem : e ∈ s := (find_some_spec h).2
  have hpe : e.protocolId = pid := (find_some_spec h).1
  have hlen : (s.eraseP (fun x => x.protocolId == pid)).length = s.length - 1 :=
    List.length_eraseP_of_mem hmem (by simp [hpe])
  rw [eraseByProtocolId, hlen]
  have hne : s ≠ [] := by rintro rfl; simp at hmem
  have : 0 < s.length := List.length_pos.2 hne
  omega

theorem option_none_or {α : Type} (o : Option α) : Option.or none o = o := rfl

theorem option_some_or {α : Type} (a : α) (o : Option α) :
    Option.or (some a) o = some a := rfl

theorem option_or_none {α : Type} (o : Option α) : Option.or o none = o := by
  cases o <;> rfl

theorem foldl_emplace_find (l : List NftProtoIndex) :
    ∀ (acc : List NftProtoIndex) (pid : Nat),
      findByProtocolId (l.foldl (fun s e => (emplace s e).1) acc) pid =
        Option.or (findByProtocolId acc pid) (findByProtocolId l pid) := by
  induction l with
  | nil =>
      intro acc pid
      rw [List.foldl_nil, findByProtocolId_nil, option_or_none]
  | cons x xs ih =>
      intro acc pid
      rw [List.foldl_cons, ih, findByProtocolId_cons]
      by_cases hx : (findByProtocolId acc x.protocolId).isSome = true
      · have hemp : (emplace acc x).1 = acc := by rw [emplace, if_pos hx]
        rw [hemp]
        by_cases hpx : x.protocolId = pid
        · rw [if_pos hpx]
          rcases ho : findByProtocolId acc pid with _ | y
          · rw [hpx, ho] at hx; simp at hx
          · rw [option_some_or, option_some_or]
        · rw [if_neg hpx]
      · have hnone : findByProtocolId acc x.protocolId = none := by
          rcases hh : findByProtocolId acc x.protocolId with _ | y
          · rfl
          · rw [hh] at hx; simp at hx
        have hemp : (emplace acc x).1 = insertByHeight x acc := by
          rw [emplace, if_neg hx]
        rw [hemp]
        by_cases hpx : x.protocolId = pid
        · rw [if_pos hpx, ← hpx,
            findByProtocolId_insertByHeight_self x acc hnone, hnone,
            option_some_or, option_none_or]
        · rw [if_neg hpx, findByProtocolId_insertByHeight_ne x acc pid hpx]

theorem find?_filter_ne (l : List NftProtoIndex) (pid q : Nat) (h : pid ≠ q) :
    (l.filter (fun x => x.protocolId != pid)).find?
        (fun e => e.protocolId == q) =
      l.find? (fun e => e.protocolId == q) := by
  induction l with
  | nil => rfl
  | cons x xs ih =>
    by_cases hx : x.protocolId = pid
    · rw [List.filter_cons_of_neg (by simp [hx])]
      rw [List.find?_cons_of_neg _ (by simp [hx]; exact fun hq => h (hq ▸ hx ▸ rfl))]
      exact ih
    · rw [List.filter_cons_of_pos (by simp [hx])]
      by_cases hq : x.protocolId = q
      · rw [List.find?_cons_of_pos _ (by simp [hq]),
          List.find?_cons_of_pos _ (by simp [hq])]
      · rw [List.find?_cons_of_neg _ (by simp [hq]),
          List.find?_cons_of_neg _ (by simp [hq])]
        exact ih

theorem find?_filter_self (l : List NftProtoIndex) (pid : Nat) :
    (l.filter (fun x => x.protocolId != pid)).find?
        (fun e => e.protocolId == pid) = none := by
  rw [List.find?_eq_none]
  intro e he
  have := (List.mem_filter.1 he).2
  simpa using this

theorem readNftProtoIndex_write_self (db : PlatformDbState)
    (e : NftProtoIndex) :
    readNftProtoIndex (writeNftProtoDiskIndex db e) e.protocolId = some e := by
  simp [readNftProtoIndex, writeNftProtoDiskIndex, List.find?_cons_of_pos]

theorem readNftProtoIndex_write_ne (db : PlatformDbState) (e : NftProtoIndex)
    (q : Nat) (h : e.protocolId ≠ q) :
    readNftProtoIndex (writeNftProtoDiskIndex db e) q =
      readNftProtoIndex db q := by
  rw [readNftProtoIndex, writeNftProtoDiskIndex]
  rw [List.find?_cons_of_neg _ (by simp [h])]
  exact find?_filter_ne db.entries e.protocolId q h

theorem readNftProtoIndex_erase_self (db : PlatformDbState) (pid : Nat) :
    readNftProtoIndex (eraseNftProtoDiskIndex db pid) pid = none :=
  find?_filter_self db.entries pid

theorem readNftProtoIndex_erase_ne (db : PlatformDbState) (pid q : Nat)
    (h : pid ≠ q) :
    readNftProtoIndex (eraseNftProtoDiskIndex db pid) q =
      readNftProtoIndex db q :=
  find?_filter_ne db.entries pid q h

theorem sliceByIterators_to_end (l : List NftProtoIndex) (s : Int)
    (hs0 : 0 ≤ s) (hsn : s ≤ (l.length : Int)) :
    sliceByIterators l ((l.length : Int) - s) (l.length : Int) =
      l.drop (l.length - s.toNat) := by
  rw [sliceByIterators]
  have h1 : ((l.length : Int) - s).toNat = l.length - s.toNat := by omega
  rw [h1]
  apply List.take_of_length_le
  rw [List.length_drop]
  omega

theorem sliceByIterators_take (l : List NftProtoIndex) (s c : Int)
    (hs0 : 0 ≤ s) (hsn : s ≤ (l.length : Int)) :
    sliceByIterators l ((l.length : Int) - s) ((l.length : Int) - (s - c)) =
      (l.drop (l.length - s.toNat)).take c.toNat := by
  rw [sliceByIterators]
  have h1 : ((l.length : Int) - s).toNat = l.length - s.toNat := by omega
  have h2 : ((l.length : Int) - (s - c) - ((l.length : Int) - s)).toNat
      = c.toNat := by omega
  rw [h1, h2]

theorem takeWhile_eq_heightQualifiedRange (st : ManagerState) (height : Int) :
    List.takeWhile (fun e => decide (e.height ≤ height)) st.m_nftProtoIndexSet =
      heightQualifiedRange st height := rfl

theorem read_some_spec {db : PlatformDbState} {pid : Nat} {e : NftProtoIndex}
    (h : readNftProtoIndex db pid = some e) :
    e.protocolId = pid ∧ e ∈ db.entries := by
  refine ⟨?_, List.mem_of_find?_eq_some h⟩
  have := List.find?_some h
  simpa using this

theorem pageWindow (l : List NftProtoIndex) (c s : Int) (_hc : 0 ≤ c)
    (hs : 0 ≤ s) (hsn : s ≤ (l.length : Int)) :
    sliceByIterators l
        ((l.length : Int) - (if (l.length : Int) < s then (l.length : Int) else s))
        ((l.length : Int) -
          (if (l.length : Int) < s + c then 0
           else (if (l.length : Int) < s then (l.length : Int) else s) - c)) =
      if (l.length : Int) < s + c then l.drop (l.length - s.toNat)
      else (l.drop (l.length - s.toNat)).take c.toNat := by
  have hns : ¬ ((l.length : Int) < s) := not_lt.2 hsn
  rw [if_neg hns]
  split
  · rw [sub_zero]
    exact sliceByIterators_to_end l s hs hsn
  · exact sliceByIterators_take l s c hs hsn

/-- C1: the claimed pagination semantics — `count` entries counted backward
from the most-recent end of the height-qualified range after skipping the
`startFrom` most-recent entries — fails on the code: with stored heights
`[1,2,3,4,5]`, `height = 5`, `count = 2`, `startFrom = 2`, the code visits
the entries at heights `[4, 5]`, not the claimed `[2, 3]`. -/
theorem C1_pagination_counterexample :
    heightsOf (ProcessNftProtoIndexRangeByHeight st5 5 2 2) ≠ [2, 3] := by
  decide

/-- C1 (amended): `ProcessNftProtoIndexRangeByHeight` anchors the window's
*start* `min(n, startFrom)` entries back from the most-recent end of the
height-qualified range `R` and then runs *forward*: for
`0 ≤ startFrom ≤ n` and `0 ≤ count`, it visits the next `count` entries of
`R` in ascending order when `n ≥ startFrom + count`, and everything from
that start to the most-recent end of `R` when `n < startFrom + count`.
With heights `[1,2,3,4,5]` and `height = 5`, `count = 2`: `startFrom = 2`
visits `[4, 5]`; `startFrom = 4` visits `[2, 3, 4, 5]`; `startFrom = 0`
computes a stop offset of `-2`, i.e. an iterator two past the range's end
(undefined iterator arithmetic in C++; under the bounds-clamped embedding
nothing is visited). -/
theorem C1_pagination_window :
    (∀ (st : ManagerState) (height count startFrom : Int),
        0 ≤ count → 0 ≤ startFrom →
        startFrom ≤ ((heightQualifiedRange st height).length : Int) →
        ProcessNftProtoIndexRangeByHeight st height count startFrom =
          if ((heightQualifiedRange st height).length : Int) < startFrom + count
          then (heightQualifiedRange st height).drop
                ((heightQualifiedRange st height).length - startFrom.toNat)
          else ((heightQualifiedRange st height).drop
                ((heightQualifiedRange st height).length - startFrom.toNat)).take
                count.toNat) ∧
    heightsOf (ProcessNftProtoIndexRangeByHeight st5 5 2 2) = [4, 5] ∧
    heightsOf (ProcessNftProtoIndexRangeByHeight st5 5 2 4) = [2, 3, 4, 5] ∧
    heightsOf (ProcessNftProtoIndexRangeByHeight st5 5 2 0) = [] := by
  refine ⟨?_, by decide, by decide, by decide⟩
  intro st height count startFrom hc hs hsn
  simp only [ProcessNftProtoIndexRangeByHeight]
  rw [takeWhile_eq_heightQualifiedRange]
  exact pageWindow _ count startFrom hc hs hsn

/-- Witness for C1 (amended), at `st5`, `height = 5`, `count = 2`,
`startFrom = 2`. -/
theorem C1_pagination_window_witness :
    ProcessNftProtoIndexRangeByHeight st5 5 2 2 =
      if ((heightQualifiedRange st5 5).length : Int) < 2 + 2
      then (heightQualifiedRange st5 5).drop
            ((heightQualifiedRange st5 5).length - (2 : Int).toNat)
      else ((heightQualifiedRange st5 5).drop
            ((heightQualifiedRange st5 5).length - (2 : Int).toNat)).take
            (2 : Int).toNat :=
  C1_pagination_window.1 st5 5 2 2 (by decide) (by decide) (by decide)

/-- C2: the claim that `startFrom ≥ n` yields an empty window fails on the
code: `reverseBegin` clamps to `n` and, with `count > 0`,
`rangeSize < startFrom + count` forces `reverseEnd = 0`, so the *entire*
height-qualified range is visited.  With stored heights `[1,2,3,4,5]`,
`height = 5`, `count = 2`, `startFrom = 10`, the visitor is invoked on all
five entries, not on none. -/
theorem C2_pagination_empty_counterexample :
    ProcessNftProtoIndexRangeByHeight st5 5 2 10 ≠ [] := by decide

/-- C2 (amended): the visitor is invoked on no entries whenever the
height-qualified range is empty (in particular when `height` is below the
lowest stored height), and whenever `count ≤ 0` with
`startFrom ≤ n` (for `count < 0` the code's stop iterator precedes its
start iterator — undefined in C++, empty under the bounds-clamped
embedding); but `startFrom ≥ n` does *not* yield an empty window: with
stored heights `[1,2,3,4,5]`, `height = 5`, `count = 2`, `startFrom = 10`
all five entries are visited. -/
theorem C2_pagination_empty_cases :
    (∀ (st : ManagerState) (height count startFrom : Int),
        heightQualifiedRange st height = [] →
        ProcessNftProtoIndexRangeByHeight st height count startFrom = []) ∧
    (∀ (st : ManagerState) (height count startFrom : Int),
        count ≤ 0 → startFrom ≤ ((heightQualifiedRange st height).length : Int) →
        ProcessNftProtoIndexRangeByHeight st height count startFrom = []) ∧
    heightsOf (ProcessNftProtoIndexRangeByHeight st5 5 2 10) =
      [1, 2, 3, 4, 5] := by
  refine ⟨?_, ?_, by decide⟩
  · intro st height count startFrom h
    have h' : List.takeWhile (fun e => decide (e.height ≤ height))
        st.m_nftProtoIndexSet = [] := h
    simp only [ProcessNftProtoIndexRangeByHeight, h']
    simp [sliceByIterators]
  · intro st height count startFrom hc hsn
    simp only [ProcessNftProtoIndexRangeByHeight]
    rw [takeWhile_eq_heightQualifiedRange]
    rw [if_neg (not_lt.2 hsn), if_neg (by omega), sliceByIterators]
    have h0 : (((heightQualifiedRange st height).length : Int) -
        (startFrom - count) -
        (((heightQualifiedRange st height).length : Int) - startFrom)).toNat
        = 0 := by omega
    rw [h0, List.take_zero]

/-- Witness for C2 (amended): the empty-range case at `height = 0` and the
`count = 0` case at `height = 7`, `startFrom = 3`, both on `st5`. -/
theorem C2_pagination_empty_cases_witness :
    heightQualifiedRange st5 0 = [] ∧
    ProcessNftProtoIndexRangeByHeight st5 0 2 0 = [] ∧
    (0 : Int) ≤ 0 ∧ (3 : Int) ≤ ((heightQualifiedRange st5 7).length : Int) ∧
    ProcessNftProtoIndexRangeByHeight st5 7 0 3 = [] :=
  ⟨by decide, C2_pagination_empty_cases.1 st5 0 2 0 (by decide), by decide,
    by decide, C2_pagination_empty_cases.2.1 st5 7 0 3 (by decide) (by decide)⟩

/-- C3: the claim that *every* lookup or mutating operation falls back to
the persistent store on a cache miss fails for `Delete`: in `stCacheMiss`
the id 7 is absent from the in-memory index but persisted with height
3 ≤ 10, yet `Delete(7, 10)` returns `false` and removes nothing. -/
theorem C3_delete_no_fallback_counterexample :
    findByProtocolId stCacheMiss.m_nftProtoIndexSet 7 = none ∧
    readNftProtoIndex stCacheMiss.db 7 = some e7 ∧
    e7.height ≤ 10 ∧
    Delete stCacheMiss 7 10 = (stCacheMiss, false) := by decide

/-- C3 (amended): for a protocolId absent from the in-memory index but
present in the persistent store, the *lookup* operations
(`GetNftProtoIndex`, `Contains`, `OwnerOf`) fall back to the store,
backfill the cache with the fetched entry and behave as if it were cached;
`Delete`, however, consults only the in-memory index and returns `false`
with no side effects for such an id, even when the stored entry's height
is ≤ the given height. -/
theorem C3_cache_miss_fallback :
    ∀ (st : ManagerState) (pid : Nat) (e : NftProtoIndex),
      findByProtocolId st.m_nftProtoIndexSet pid = none →
      readNftProtoIndex st.db pid = some e →
      GetNftProtoIndex st pid =
        ({ st with m_nftProtoIndexSet := insertByHeight e st.m_nftProtoIndexSet },
          some e) ∧
      findByProtocolId (GetNftProtoIndex st pid).1.m_nftProtoIndexSet pid =
        some e ∧
      (∀ h, Contains st pid h =
        ({ st with m_nftProtoIndexSet := insertByHeight e st.m_nftProtoIndexSet },
          decide (e.height ≤ h))) ∧
      OwnerOf st pid =
        ({ st with m_nftProtoIndexSet := insertByHeight e st.m_nftProtoIndexSet },
          some e.nftProto.tokenProtocolOwnerId) ∧
      (∀ h, Delete st pid h = (st, false)) := by
  intro st pid e hmem hdb
  have hpe : e.protocolId = pid := (read_some_spec hdb).1
  have hset : (emplace st.m_nftProtoIndexSet e).1 =
      insertByHeight e st.m_nftProtoIndexSet := by
    rw [emplace, hpe, hmem]
    simp
  have hget : GetNftProtoIndex st pid =
      ({ st with m_nftProtoIndexSet := insertByHeight e st.m_nftProtoIndexSet },
        some e) := by
    simp only [GetNftProtoIndex, hmem, GetNftProtoIndexFromDb, hdb, hset]
  refine ⟨hget, ?_, ?_, ?_, ?_⟩
  · rw [hget]
    rw [← hpe] at hmem ⊢
    exact findByProtocolId_insertByHeight_self e st.m_nftProtoIndexSet hmem
  · intro h
    simp only [Contains, hget]
  · simp only [OwnerOf, hmem, GetNftProtoIndexFromDb, hdb, hset]
    rfl
  · intro h
    simp only [Delete, hmem]

/-- Witness for C3 (amended), at `stCacheMiss` with the persisted entry
`e7`. -/
theorem C3_cache_miss_fallback_witness :
    GetNftProtoIndex stCacheMiss 7 =
      ({ stCacheMiss with
          m_nftProtoIndexSet := insertByHeight e7 stCacheMiss.m_nftProtoIndexSet },
        some e7) :=
  (C3_cache_miss_fallback stCacheMiss 7 e7 (by decide) (by decide)).1

/-- C4: construction copies `totalProtocolCount` from the persistent store
and streams every persisted entry into the in-memory index, skipping
key collisions non-fatally while the scan continues, so the constructed
index resolves every protocolId exactly as the persisted entry list does:
lookups agree with the first persisted entry under each id, and every
distinctly-keyed persisted entry is present.  (The streaming callback
`ProcessNftProtoIndexGutsOnly` is outside `src/` and modelled from the
spec's non-fatal-skip description.) -/
theorem C4_construction_loads_index :
    ∀ (db : PlatformDbState) (pid : Nat),
      (constructManager db).m_totalProtocolsCount = db.totalCount ∧
      findByProtocolId (constructManager db).m_nftProtoIndexSet pid =
        findByProtocolId db.entries pid := by
  intro db pid
  refine ⟨rfl, ?_⟩
  show findByProtocolId (db.entries.foldl (fun s e => (emplace s e).1) []) pid
      = findByProtocolId db.entries pid
  rw [foldl_emplace_find, findByProtocolId_nil, option_none_or]

/-- C5: adding a descriptor whose protocolId is already present in the
registry returns `false` and changes nothing at all — the prior entry, the
counter and the persistent store are untouched. -/
theorem C5_duplicate_add_no_change :
    ∀ (st : ManagerState) (d : NfTokenProtocol) (tx : Nat) (blk : CBlockIndex),
      (findByProtocolId st.m_nftProtoIndexSet d.tokenProtocolId).isSome = true →
      AddNftProto st d tx blk = (st, false) := by
  intro st d tx blk h
  simp only [AddNftProto, emplace, NftProtoIndex.protocolId, h]
  simp

/-- Witness for C5: re-adding the descriptor with protocolId 3 to `st5`
fails and leaves the state intact. -/
theorem C5_duplicate_add_no_change_witness :
    (findByProtocolId st5.m_nftProtoIndexSet
      ((mkEntry 3 9).nftProto).tokenProtocolId).isSome = true ∧
    AddNftProto st5 (mkEntry 3 9).nftProto 999
      { nHeight := 9, blockHash := 9 } = (st5, false) :=
  ⟨by decide,
    C5_duplicate_add_no_change st5 (mkEntry 3 9).nftProto 999
      { nHeight := 9, blockHash := 9 } (by decide)⟩

/-- C6: `Delete(protocolId, h)` succeeds — erasing the entry from the
in-memory index and the persistent store and decrementing and persisting
the counter — exactly when an entry with that id exists with recorded
height ≤ h, and otherwise returns `false` with no side effects; the
one-argument overload uses the current tip height.  Stated for non-reserved
ids, `h ≥ 0` (the function's `assert`s), states whose in-memory keys are
unique (invariant I1) and whose persisted entry for the id, if any, is the
cached one (the registry loads all persisted entries at construction). -/
theorem C6_delete_height_gate :
    ∀ (st : ManagerState) (pid : Nat) (h : Int),
      pid ≠ 0 → 0 ≤ h →
      (st.m_nftProtoIndexSet.map NftProtoIndex.protocolId).Nodup →
      (∀ e, readNftProtoIndex st.db pid = some e →
        findByProtocolId st.m_nftProtoIndexSet pid = some e) →
      (((Delete st pid h).2 = true) ↔
        ∃ e, (findByProtocolId st.m_nftProtoIndexSet pid = some e ∨
              readNftProtoIndex st.db pid = some e) ∧ e.height ≤ h) ∧
      ((Delete st pid h).2 = false → (Delete st pid h).1 = st) ∧
      ((Delete st pid h).2 = true →
        findByProtocolId (Delete st pid h).1.m_nftProtoIndexSet pid = none ∧
        readNftProtoIndex (Delete st pid h).1.db pid = none ∧
        (Delete st pid h).1.m_totalProtocolsCount =
          st.m_totalProtocolsCount - 1 ∧
        (Delete st pid h).1.db.totalCount = st.m_totalProtocolsCount - 1) ∧
      DeleteAtTip st pid = Delete st pid st.m_tipHeight := by
  intro st pid h _ _ hnd hcoh
  by_cases hex : ∃ e, findByProtocolId st.m_nftProtoIndexSet pid = some e ∧
      e.height ≤ h
  · obtain ⟨e, hmem, hht⟩ := hex
    have hDel : Delete st pid h =
        ({ st with
            m_nftProtoIndexSet := eraseByProtocolId st.m_nftProtoIndexSet pid
            m_totalProtocolsCount := st.m_totalProtocolsCount - 1
            db := writeTotalProtocolCount (eraseNftProtoDiskIndex st.db pid)
                    (st.m_totalProtocolsCount - 1) }, true) := by
      rw [Delete]
      simp only [hmem, if_pos hht]
    refine ⟨?_, ?_, ?_, rfl⟩
    · rw [hDel]
      exact ⟨fun _ => ⟨e, Or.inl hmem, hht⟩, fun _ => rfl⟩
    · rw [hDel]
      intro hf
      exact Bool.noConfusion hf
    · intro _
      rw [hDel]
      exact ⟨findByProtocolId_erase_self st.m_nftProtoIndexSet pid hnd,
        readNftProtoIndex_erase_self st.db pid, rfl, rfl⟩
  · have hDel : Delete st pid h = (st, false) := by
      rcases hmem : findByProtocolId st.m_nftProtoIndexSet pid with _ | e
      · rw [Delete]
        simp only [hmem]
      · have hht : ¬ e.height ≤ h := fun hht => hex ⟨e, hmem, hht⟩
        rw [Delete]
        simp only [hmem, if_neg hht]
    refine ⟨?_, ?_, ?_, rfl⟩
    · rw [hDel]
      constructor
      · intro hf
        exact Bool.noConfusion hf
      · rintro ⟨e, hor, hht⟩
        have hmem : findByProtocolId st.m_nftProtoIndexSet pid = some e := by
          rcases hor with hm | hd
          · exact hm
          · exact hcoh e hd
        exact absurd ⟨e, hmem, hht⟩ hex
    · intro _
      rw [hDel]
    · rw [hDel]
      intro hf
      exact Bool.noConfusion hf

/-- Witness for C6, deleting protocolId 2 (recorded height 2 ≤ 5) from
`st5`. -/
theorem C6_delete_height_gate_witness :
    ((Delete st5 2 5).2 = true) ↔
      ∃ e, (findByProtocolId st5.m_nftProtoIndexSet 2 = some e ∨
            readNftProtoIndex st5.db 2 = some e) ∧ e.height ≤ 5 :=
  (C6_delete_height_gate st5 2 5 (by decide) (by decide) (by decide)
    (by
      intro e he
      have hr : readNftProtoIndex st5.db 2 = some (mkEntry 2 2) := by decide
      rw [hr] at he
      injection he with he'
      rw [← he']
      decide)).1

/-- C7: `Contains(protocolId, h)` is true iff an entry with that id exists
— in the in-memory index or in the persistent store — with
`blockHeight ≤ h`; in particular it is false when `h` is below that
entry's height and false when no such entry exists.  Stated for
non-reserved ids and `h ≥ 0` (the function's `assert`s), under coherence of
cache and store on the queried id (an id cached and persisted with
different payloads cannot arise from the registry's own operations). -/
theorem C7_contains_iff :
    ∀ (st : ManagerState) (pid : Nat) (h : Int),
      pid ≠ 0 → 0 ≤ h →
      (∀ e e', findByProtocolId st.m_nftProtoIndexSet pid = some e →
        readNftProtoIndex st.db pid = some e' → e = e') →
      ((Contains st pid h).2 = true ↔
        ∃ e, (findByProtocolId st.m_nftProtoIndexSet pid = some e ∨
              readNftProtoIndex st.db pid = some e) ∧ e.height ≤ h) := by
  intro st pid h _ _ hcoh
  rcases hmem : findByProtocolId st.m_nftProtoIndexSet pid with _ | e
  · rcases hdb : readNftProtoIndex st.db pid with _ | e
    · have hC : (Contains st pid h).2 = false := by
        rw [Contains]
        simp only [GetNftProtoIndex, hmem, GetNftProtoIndexFromDb, hdb]
      rw [hC]
      constructor
      · intro hf
        exact Bool.noConfusion hf
      · rintro ⟨e, hor, _⟩
        rcases hor with hm | hd
        · exact Option.noConfusion hm
        · exact Option.noConfusion hd
    · have hC : (Contains st pid h).2 = decide (e.height ≤ h) := by
        rw [Contains]
        simp only [GetNftProtoIndex, hmem, GetNftProtoIndexFromDb, hdb]
      rw [hC]
      constructor
      · intro ht
        exact ⟨e, Or.inr rfl, of_decide_eq_true ht⟩
      · rintro ⟨e', hor, hht⟩
        rcases hor with hm | hd
        · exact Option.noConfusion hm
        · injection hd with hd'
          rw [hd']
          exact decide_eq_true hht
  · have hC : (Contains st pid h).2 = decide (e.height ≤ h) := by
      rw [Contains]
      simp only [GetNftProtoIndex, hmem]
    rw [hC]
    constructor
    · intro ht
      exact ⟨e, Or.inl rfl, of_decide_eq_true ht⟩
    · rintro ⟨e', hor, hht⟩
      rcases hor with hm | hd
      · injection hm with hm'
        rw [hm']
        exact decide_eq_true hht
      · have hee : e = e' := hcoh e e' hmem hd
        rw [hee]
        exact decide_eq_true hht

/-- Witness for C7, querying protocolId 4 at height 5 on `st5`. -/
theorem C7_contains_iff_witness :
    (Contains st5 4 5).2 = true ↔
      ∃ e, (findByProtocolId st5.m_nftProtoIndexSet 4 = some e ∨
            readNftProtoIndex st5.db 4 = some e) ∧ e.height ≤ 5 :=
  C7_contains_iff st5 4 5 (by decide) (by decide)
    (by
      intro e e' h1 h2
      have hm : findByProtocolId st5.m_nftProtoIndexSet 4 =
          some (mkEntry 4 4) := by decide
      have hr : readNftProtoIndex st5.db 4 = some (mkEntry 4 4) := by decide
      rw [hm] at h1
      rw [hr] at h2
      injection h1 with h1'
      injection h2 with h2'
      rw [← h1', ← h2'])

/-- C9: a successful `AddNftProto` of a valid descriptor (non-reserved id,
non-null owner, non-null tx hash) whose protocolId is not yet registered,
followed immediately by `GetNftProtoIndex` of that id, returns a non-null
entry carrying exactly the added descriptor, tx hash and block index. -/
theorem C9_add_lookup_roundtrip :
    ∀ (st : ManagerState) (d : NfTokenProtocol) (tx : Nat) (blk : CBlockIndex),
      d.tokenProtocolId ≠ 0 → d.tokenProtocolOwnerId ≠ 0 → tx ≠ 0 →
      findByProtocolId st.m_nftProtoIndexSet d.tokenProtocolId = none →
      (AddNftProto st d tx blk).2 = true ∧
      (GetNftProtoIndex (AddNftProto st d tx blk).1 d.tokenProtocolId).2 =
        some { blockIndex := blk, regTxHash := tx, nftProto := d } := by
  intro st d tx blk _ _ _ hmem
  have hemp : emplace st.m_nftProtoIndexSet
      { blockIndex := blk, regTxHash := tx, nftProto := d } =
      (insertByHeight { blockIndex := blk, regTxHash := tx, nftProto := d }
        st.m_nftProtoIndexSet, true) := by
    rw [emplace]
    have hc : (findByProtocolId st.m_nftProtoIndexSet
        (NftProtoIndex.protocolId
          { blockIndex := blk, regTxHash := tx, nftProto := d })).isSome
        = false := by
      show (findByProtocolId st.m_nftProtoIndexSet d.tokenProtocolId).isSome
        = false
      rw [hmem]
      rfl
    rw [if_neg (by rw [hc]; exact Bool.false_ne_true)]
  have hAdd : AddNftProto st d tx blk =
      ({ st with
          m_nftProtoIndexSet :=
            insertByHeight { blockIndex := blk, regTxHash := tx, nftProto := d }
              st.m_nftProtoIndexSet
          m_totalProtocolsCount := st.m_totalProtocolsCount + 1
          db := writeTotalProtocolCount
                  (writeNftProtoDiskIndex st.db
                    { blockIndex := blk, regTxHash := tx, nftProto := d })
                  (st.m_totalProtocolsCount + 1) }, true) := by
    rw [AddNftProto]
    simp [hemp]
  refine ⟨by rw [hAdd], ?_⟩
  rw [hAdd]
  have hfind : findByProtocolId
      (insertByHeight { blockIndex := blk, regTxHash := tx, nftProto := d }
        st.m_nftProtoIndexSet) d.tokenProtocolId =
      some { blockIndex := blk, regTxHash := tx, nftProto := d } :=
    findByProtocolId_insertByHeight_self
      { blockIndex := blk, regTxHash := tx, nftProto := d }
      st.m_nftProtoIndexSet hmem
  rw [GetNftProtoIndex]
  simp only [hfind]

/-- Witness for C9: adding the fresh descriptor with protocolId 6 to `st5`
and looking it up. -/
theorem C9_add_lookup_roundtrip_witness :
    (AddNftProto st5 (mkEntry 6 6).nftProto 206 (mkEntry 6 6).blockIndex).2
      = true ∧
    (GetNftProtoIndex
        (AddNftProto st5 (mkEntry 6 6).nftProto 206
          (mkEntry 6 6).blockIndex).1 6).2 = some (mkEntry 6 6) :=
  C9_add_lookup_roundtrip st5 (mkEntry 6 6).nftProto 206
    (mkEntry 6 6).blockIndex (by decide) (by decide) (by decide) (by decide)

/-- C10: a read-only query (`GetNftProtoIndex`, `Contains`, `OwnerOf`) on a
protocolId absent from the in-memory index inserts the fetched entry into
the index when the persistent store has it — leaving
`m_totalProtocolsCount`, `m_tipHeight`, `m_tipBlockHash` and the store
untouched — and changes no state at all when the store misses too. -/
theorem C10_query_frame :
    ∀ (st : ManagerState) (pid : Nat),
      findByProtocolId st.m_nftProtoIndexSet pid = none →
      (∀ e, readNftProtoIndex st.db pid = some e →
        ((GetNftProtoIndex st pid).1.m_nftProtoIndexSet =
            insertByHeight e st.m_nftProtoIndexSet ∧
          (GetNftProtoIndex st pid).1.m_totalProtocolsCount =
            st.m_totalProtocolsCount ∧
          (GetNftProtoIndex st pid).1.m_tipHeight = st.m_tipHeight ∧
          (GetNftProtoIndex st pid).1.m_tipBlockHash = st.m_tipBlockHash ∧
          (GetNftProtoIndex st pid).1.db = st.db) ∧
        (∀ h, (Contains st pid h).1 = (GetNftProtoIndex st pid).1) ∧
        (OwnerOf st pid).1 = (GetNftProtoIndex st pid).1) ∧
      (readNftProtoIndex st.db pid = none →
        (GetNftProtoIndex st pid).1 = st ∧
        (∀ h, (Contains st pid h).1 = st) ∧
        (OwnerOf st pid).1 = st) := by
  intro st pid hmem
  constructor
  · intro e hdb
    have hpe : e.protocolId = pid := (read_some_spec hdb).1
    have hset : (emplace st.m_nftProtoIndexSet e).1 =
        insertByHeight e st.m_nftProtoIndexSet := by
      rw [emplace, hpe, hmem]
      simp
    have hget : GetNftProtoIndex st pid =
        ({ st with m_nftProtoIndexSet := insertByHeight e st.m_nftProtoIndexSet },
          some e) := by
      simp only [GetNftProtoIndex, hmem, GetNftProtoIndexFromDb, hdb, hset]
    refine ⟨by rw [hget]; exact ⟨rfl, rfl, rfl, rfl, rfl⟩, ?_, ?_⟩
    · intro h
      rw [Contains]
      simp only [hget]
    · rw [hget]
      simp only [OwnerOf, hmem, GetNftProtoIndexFromDb, hdb, hset]
  · intro hdb
    have hget : GetNftProtoIndex st pid = (st, none) := by
      simp only [GetNftProtoIndex, hmem, GetNftProtoIndexFromDb, hdb]
    refine ⟨by rw [hget], ?_, ?_⟩
    · intro h
      rw [Contains]
      simp only [hget]
    · simp only [OwnerOf, hmem, GetNftProtoIndexFromDb, hdb]

/-- Witness for C10: looking up the uncached-but-persisted protocolId 7 in
`stCacheMiss` backfills the cache; the counter, tip state and store are
untouched. -/
theorem C10_query_frame_witness :
    (GetNftProtoIndex stCacheMiss 7).1.m_nftProtoIndexSet =
        insertByHeight e7 stCacheMiss.m_nftProtoIndexSet ∧
      (GetNftProtoIndex stCacheMiss 7).1.m_totalProtocolsCount =
        stCacheMiss.m_totalProtocolsCount ∧
      (GetNftProtoIndex stCacheMiss 7).1.m_tipHeight =
        stCacheMiss.m_tipHeight ∧
      (GetNftProtoIndex stCacheMiss 7).1.m_tipBlockHash =
        stCacheMiss.m_tipBlockHash ∧
      (GetNftProtoIndex stCacheMiss 7).1.db = stCacheMiss.db :=
  (((C10_query_frame stCacheMiss 7 (by decide)).1) e7 (by decide)).1

/-! Preservation lemmas for the trace invariant of claim C8. -/

theorem GetNftProtoIndex_state_cached (st : ManagerState) (pid : Nat)
    (hs : StoreCached st) : (GetNftProtoIndex st pid).1 = st := by
  rcases hmem : findByProtocolId st.m_nftProtoIndexSet pid with _ | e
  · have hdb : readNftProtoIndex st.db pid = none := by
      rcases hs pid with hnone | hsome
      · exact hnone
      · rw [hmem] at hsome
        exact absurd hsome (by simp)
    simp only [GetNftProtoIndex, hmem, GetNftProtoIndexFromDb, hdb]
  · simp only [GetNftProtoIndex, hmem]

theorem OwnerOf_state_cached (st : ManagerState) (pid : Nat)
    (hs : StoreCached st) : (OwnerOf st pid).1 = st := by
  rcases hmem : findByProtocolId st.m_nftProtoIndexSet pid with _ | e
  · have hdb : readNftProtoIndex st.db pid = none := by
      rcases hs pid with hnone | hsome
      · exact hnone
      · rw [hmem] at hsome
        exact absurd hsome (by simp)
    simp only [OwnerOf, hmem, GetNftProtoIndexFromDb, hdb]
  · simp only [OwnerOf, hmem]

theorem Contains_state_cached (st : ManagerState) (pid : Nat) (h : Int)
    (hs : StoreCached st) : (Contains st pid h).1 = st := by
  rw [Contains]
  cases hg : (GetNftProtoIndex st pid).2 with
  | none =>
      simp only [hg]
      exact GetNftProtoIndex_state_cached st pid hs
  | some e =>
      simp only [hg]
      exact GetNftProtoIndex_state_cached st pid hs

theorem AddNftProto_inv (st : ManagerState) (d : NfTokenProtocol) (tx : Nat)
    (blk : CBlockIndex) (hs : StoreCached st)
    (hc : st.m_totalProtocolsCount = (st.m_nftProtoIndexSet.length : Int)) :
    StoreCached (AddNftProto st d tx blk).1 ∧
    (AddNftProto st d tx blk).1.m_totalProtocolsCount =
      ((AddNftProto st d tx blk).1.m_nftProtoIndexSet.length : Int) ∧
    (AddNftProto st d tx blk).1.m_totalProtocolsCount =
      st.m_totalProtocolsCount +
        (if (AddNftProto st d tx blk).2 = true then 1 else 0) := by
  by_cases hx : (findByProtocolId st.m_nftProtoIndexSet
      d.tokenProtocolId).isSome = true
  · have hAdd : AddNftProto st d tx blk = (st, false) := by
      simp only [AddNftProto, emplace, NftProtoIndex.protocolId, hx]
      simp
    rw [hAdd]
    exact ⟨hs, hc, by simp⟩
  · have hnone : findByProtocolId st.m_nftProtoIndexSet d.tokenProtocolId
        = none := by
      rcases hh : findByProtocolId st.m_nftProtoIndexSet d.tokenProtocolId
        with _ | y
      · rfl
      · rw [hh] at hx
        exact absurd rfl hx
    have hemp : emplace st.m_nftProtoIndexSet
        { blockIndex := blk, regTxHash := tx, nftProto := d } =
        (insertByHeight { blockIndex := blk, regTxHash := tx, nftProto := d }
          st.m_nftProtoIndexSet, true) := by
      rw [emplace]
      rw [if_neg (by
        show ¬ ((findByProtocolId st.m_nftProtoIndexSet
          d.tokenProtocolId).isSome = true)
        rw [hnone]
        simp)]
    have hAdd : AddNftProto st d tx blk =
        ({ st with
            m_nftProtoIndexSet :=
              insertByHeight
                { blockIndex := blk, regTxHash := tx, nftProto := d }
                st.m_nftProtoIndexSet
            m_totalProtocolsCount := st.m_totalProtocolsCount + 1
            db := writeTotalProtocolCount
                    (writeNftProtoDiskIndex st.db
                      { blockIndex := blk, regTxHash := tx, nftProto := d })
                    (st.m_totalProtocolsCount + 1) }, true) := by
      rw [AddNftProto]
      simp [hemp]
    rw [hAdd]
    refine ⟨?_, ?_, by simp⟩
    · intro q
      by_cases hq : q = d.tokenProtocolId
      · right
        show (findByProtocolId
          (insertByHeight { blockIndex := blk, regTxHash := tx, nftProto := d }
            st.m_nftProtoIndexSet) q).isSome = true
        rw [hq]
        have hself := findByProtocolId_insertByHeight_self
          { blockIndex := blk, regTxHash := tx, nftProto := d }
          st.m_nftProtoIndexSet hnone
        simp only [NftProtoIndex.protocolId] at hself
        rw [hself]
        rfl
      · have hwr : readNftProtoIndex
            (writeTotalProtocolCount
              (writeNftProtoDiskIndex st.db
                { blockIndex := blk, regTxHash := tx, nftProto := d })
              (st.m_totalProtocolsCount + 1)) q =
            readNftProtoIndex st.db q :=
          readNftProtoIndex_write_ne st.db
            { blockIndex := blk, regTxHash := tx, nftProto := d } q
            (fun hh => hq (hh.symm))
        rcases hs q with hnoneq | hsomeq
        · left
          show readNftProtoIndex
            (writeTotalProtocolCount
              (writeNftProtoDiskIndex st.db
                { blockIndex := blk, regTxHash := tx, nftProto := d })
              (st.m_totalProtocolsCount + 1)) q = none
          rw [hwr, hnoneq]
        · right
          show (findByProtocolId
            (insertByHeight { blockIndex := blk, regTxHash := tx, nftProto := d }
              st.m_nftProtoIndexSet) q).isSome = true
          rw [findByProtocolId_insertByHeight_ne
            { blockIndex := blk, regTxHash := tx, nftProto := d }
            st.m_nftProtoIndexSet q (fun hh => hq (hh.symm))]
          exact hsomeq
    · show st.m_totalProtocolsCount + 1 =
        ((insertByHeight { blockIndex := blk, regTxHash := tx, nftProto := d }
          st.m_nftProtoIndexSet).length : Int)
      rw [length_insertByHeight]
      rw [hc]
      push_cast
      ring

theorem Delete_inv (st : ManagerState) (pid : Nat) (h : Int)
    (hs : StoreCached st)
    (hc : st.m_totalProtocolsCount = (st.m_nftProtoIndexSet.length : Int)) :
    StoreCached (Delete st pid h).1 ∧
    (Delete st pid h).1.m_totalProtocolsCount =
      ((Delete st pid h).1.m_nftProtoIndexSet.length : Int) ∧
    (Delete st pid h).1.m_totalProtocolsCount =
      st.m_totalProtocolsCount -
        (if (Delete st pid h).2 = true then 1 else 0) := by
  rcases hmem : findByProtocolId st.m_nftProtoIndexSet pid with _ | e
  · have hDel : Delete st pid h = (st, false) := by
      rw [Delete]
      simp only [hmem]
    rw [hDel]
    exact ⟨hs, hc, by simp⟩
  · by_cases hht : e.height ≤ h
    · have hDel : Delete st pid h =
          ({ st with
              m_nftProtoIndexSet := eraseByProtocolId st.m_nftProtoIndexSet pid
              m_totalProtocolsCount := st.m_totalProtocolsCount - 1
              db := writeTotalProtocolCount (eraseNftProtoDiskIndex st.db pid)
                      (st.m_totalProtocolsCount - 1) }, true) := by
        rw [Delete]
        simp only [hmem, if_pos hht]
      rw [hDel]
      refine ⟨?_, ?_, by simp⟩
      · intro q
        by_cases hq : q = pid
        · left
          show readNftProtoIndex
            (writeTotalProtocolCount (eraseNftProtoDiskIndex st.db pid)
              (st.m_totalProtocolsCount - 1)) q = none
          rw [hq]
          exact readNftProtoIndex_erase_self st.db pid
        · have her : readNftProtoIndex
              (writeTotalProtocolCount (eraseNftProtoDiskIndex st.db pid)
                (st.m_totalProtocolsCount - 1)) q =
              readNftProtoIndex st.db q :=
            readNftProtoIndex_erase_ne st.db pid q (fun hh => hq (hh.symm))
          rcases hs q with hnoneq | hsomeq
          · left
            show readNftProtoIndex
              (writeTotalProtocolCount (eraseNftProtoDiskIndex st.db pid)
                (st.m_totalProtocolsCount - 1)) q = none
            rw [her, hnoneq]
          · right
            show (findByProtocolId
              (eraseByProtocolId st.m_nftProtoIndexSet pid) q).isSome = true
            rw [findByProtocolId_eraseP_ne st.m_nftProtoIndexSet pid q
              (fun hh => hq (hh.symm))]
            exact hsomeq
      · show st.m_totalProtocolsCount - 1 =
          ((eraseByProtocolId st.m_nftProtoIndexSet pid).length : Int)
        have hlen := length_erase_of_find st.m_nftProtoIndexSet pid e hmem
        rw [hc]
        omega
    · have hDel : Delete st pid h = (st, false) := by
        rw [Delete]
        simp only [hmem, if_neg hht]
      rw [hDel]
      exact ⟨hs, hc, by simp⟩

theorem stepCounts_inv (st : ManagerState) (op : Op)
    (hs : StoreCached st)
    (hc : st.m_totalProtocolsCount = (st.m_nftProtoIndexSet.length : Int)) :
    StoreCached (stepCounts st op).1 ∧
    (stepCounts st op).1.m_totalProtocolsCount =
      ((stepCounts st op).1.m_nftProtoIndexSet.length : Int) ∧
    (stepCounts st op).1.m_totalProtocolsCount =
      st.m_totalProtocolsCount +
        (if (stepCounts st op).2.1 = true then 1 else 0) -
        (if (stepCounts st op).2.2 = true then 1 else 0) := by
  cases op with
  | addOp d tx blk =>
      obtain ⟨h1, h2, h3⟩ := AddNftProto_inv st d tx blk hs hc
      exact ⟨h1, h2, by simp only [stepCounts]; rw [h3]; simp⟩
  | deleteOp pid h =>
      obtain ⟨h1, h2, h3⟩ := Delete_inv st pid h hs hc
      exact ⟨h1, h2, by simp only [stepCounts]; rw [h3]; simp⟩
  | deleteAtTipOp pid =>
      obtain ⟨h1, h2, h3⟩ := Delete_inv st pid st.m_tipHeight hs hc
      exact ⟨h1, h2, by simp only [stepCounts, DeleteAtTip]; rw [h3]; simp⟩
  | containsOp pid h =>
      have hst : (Contains st pid h).1 = st := Contains_state_cached st pid h hs
      simp only [stepCounts, hst]
      exact ⟨hs, hc, by simp⟩
  | containsAtTipOp pid =>
      have hst : (Contains st pid st.m_tipHeight).1 = st :=
        Contains_state_cached st pid st.m_tipHeight hs
      simp only [stepCounts, ContainsAtTip, hst]
      exact ⟨hs, hc, by simp⟩
  | lookupOp pid =>
      have hst : (GetNftProtoIndex st pid).1 = st :=
        GetNftProtoIndex_state_cached st pid hs
      simp only [stepCounts, hst]
      exact ⟨hs, hc, by simp⟩
  | ownerOfOp pid =>
      have hst : (OwnerOf st pid).1 = st := OwnerOf_state_cached st pid hs
      simp only [stepCounts, hst]
      exact ⟨hs, hc, by simp⟩
  | updateTipOp blk =>
      simp only [stepCounts, UpdateBlockTip]
      exact ⟨hs, hc, by simp⟩

theorem runFrom_inv (ops : List Op) :
    ∀ (st : ManagerState) (n m : Nat),
      StoreCached st →
      st.m_totalProtocolsCount = (st.m_nftProtoIndexSet.length : Int) →
      st.m_totalProtocolsCount = (n : Int) - (m : Int) →
      (runFrom st n m ops).1.m_totalProtocolsCount =
        ((runFrom st n m ops).2.1 : Int) - ((runFrom st n m ops).2.2 : Int) ∧
      (runFrom st n m ops).1.m_totalProtocolsCount =
        ((runFrom st n m ops).1.m_nftProtoIndexSet.length : Int) := by
  induction ops with
  | nil =>
      intro st n m _ hc hnm
      exact ⟨hnm, hc⟩
  | cons op ops ih =>
      intro st n m hsy hc hnm
      rw [runFrom]
      obtain ⟨hs', hc', hdelta⟩ := stepCounts_inv st op hsy hc
      apply ih
      · exact hs'
      · exact hc'
      · rw [hdelta, hnm]
        by_cases h1 : (stepCounts st op).2.1 = true <;>
          by_cases h2 : (stepCounts st op).2.2 = true <;>
            simp [h1, h2] <;> omega

/-- C8: starting from a registry constructed over an empty persistent
store, after any sequence of public operations `totalProtocolsCount`
equals the number of successful `Add`s minus the number of successful
`Delete`s performed so far, and equals the number of entries in the
in-memory index. -/
theorem C8_count_invariant :
    ∀ ops : List Op,
      (runTrace ops).1.m_totalProtocolsCount =
        ((runTrace ops).2.1 : Int) - ((runTrace ops).2.2 : Int) ∧
      (runTrace ops).1.m_totalProtocolsCount =
        ((runTrace ops).1.m_nftProtoIndexSet.length : Int) := by
  intro ops
  rw [runTrace]
  apply runFrom_inv
  · intro pid
    exact Or.inl rfl
  · rfl
  · rfl

end Platform
